import Mathlib

/-!
Doubly linked list with Stack and Queue insert policies (`Sourc.cpp`)

Shallow embedding of `struct Node`, `class DoublyLinkedList`, `Stack` and `Queue`.

* Pointers are `Option Nat`: `none` is `nullptr`, `some a` is the address `a`.
* The free store is a list of cells indexed by address.  `new Node(data)` appends a
  cell (the fresh address is the old length of the store), `delete p` empties the cell.
* Dereferencing `nullptr` or the address of an emptied cell is undefined behaviour in
  C++; the embedding reports it as a `Fault`.
* The two `while` loops take a fuel argument that bounds the number of evaluations of
  the loop condition; running out is reported as `Fault.outOfFuel`.
* `int` payloads are only stored and compared, never computed with, so they are `Int`.
-/

namespace Sourc

/-- Ways in which an execution can fail to produce a result. -/
inductive Fault where
  | nullDeref
  | useAfterFree
  | outOfFuel
  deriving DecidableEq, Repr

/-- Outcome of running a piece of the program. -/
inductive Res (α : Type) where
  | ok : α → Res α
  | fault : Fault → Res α
  deriving DecidableEq, Repr

/-- Sequencing of outcomes: the first fault wins. -/
def Res.bind {α β : Type} : Res α → (α → Res β) → Res β
  | Res.ok a, f => f a
  | Res.fault e, _ => Res.fault e

instance : Monad Res where
  pure := Res.ok
  bind := Res.bind

/-- Source: `struct Node { int data; Node* prev; Node* next; }`. -/
structure Node where
  data : Int
  prev : Option Nat
  next : Option Nat
  deriving DecidableEq, Repr

/-- Source: `Node(int data) : data(data), prev(nullptr), next(nullptr)`. -/
def Node.new (data : Int) : Node :=
  { data := data, prev := none, next := none }

/-- The free store: cell `a` holds `some n` while the node at address `a` is alive and
`none` once it has been deleted. -/
abbrev Heap := List (Option Node)

/-- Source: `class DoublyLinkedList { Node* head; Node* tail; }`, together with the
free store the two pointers refer into. -/
structure DoublyLinkedList where
  head : Option Nat
  tail : Option Nat
  heap : Heap
  deriving DecidableEq, Repr

/-- Source: `DoublyLinkedList() : head(nullptr), tail(nullptr)`. -/
def DoublyLinkedList.empty : DoublyLinkedList :=
  { head := none, tail := none, heap := [] }

/-- The node stored at address `a`, if that address holds a live node. -/
def lookup (h : Heap) (a : Nat) : Option Node :=
  match h[a]? with
  | some c => c
  | none => none

/-- Read through a pointer (`p->...` as an rvalue). -/
def deref (h : Heap) : Option Nat → Res Node
  | none => Res.fault Fault.nullDeref
  | some a =>
    match lookup h a with
    | some n => Res.ok n
    | none => Res.fault Fault.useAfterFree

/-- Write one field through a pointer (`p->field = ...`). -/
def assign (h : Heap) (p : Option Nat) (f : Node → Node) : Res Heap :=
  match p with
  | none => Res.fault Fault.nullDeref
  | some a =>
    match lookup h a with
    | some n => Res.ok (h.set a (some (f n)))
    | none => Res.fault Fault.useAfterFree

/-- Source: `delete p` for a non-null `p`. -/
def free (h : Heap) (a : Nat) : Heap :=
  h.set a none

/-- Loop of `printContents` (lines 29-33): the payloads printed from `current` on. -/
def printLoop : Nat → Heap → Option Nat → Res (List Int)
  | 0, _, _ => Res.fault Fault.outOfFuel
  | _ + 1, _, none => Res.ok []
  | fuel + 1, h, some a =>
    match deref h (some a) with
    | Res.fault e => Res.fault e
    | Res.ok n =>
      match printLoop fuel h n.next with
      | Res.fault e => Res.fault e
      | Res.ok rest => Res.ok (n.data :: rest)

/-- Source: `DoublyLinkedList::printContents` (lines 28-35), returning the sequence of
values written to the output. -/
def printContents (fuel : Nat) (s : DoublyLinkedList) : Res (List Int) :=
  printLoop fuel s.heap s.head

/-- Search loop of `remove` (lines 54-57 and 92-95):
`while (temp != nullptr && temp->data != data) temp = temp->next;`
returning the final value of `temp`. -/
def searchLoop : Nat → Heap → Int → Option Nat → Res (Option Nat)
  | 0, _, _, _ => Res.fault Fault.outOfFuel
  | _ + 1, _, _, none => Res.ok none
  | fuel + 1, h, data, some a =>
    match deref h (some a) with
    | Res.fault e => Res.fault e
    | Res.ok n => if n.data ≠ data then searchLoop fuel h data n.next else Res.ok (some a)

/-- Source: `Stack::insert` (lines 41-51). -/
def Stack.insert (data : Int) (s : DoublyLinkedList) : Res DoublyLinkedList :=
  let newNode := s.heap.length
  let heap0 := s.heap ++ [some (Node.new data)]
  if s.head = none then
    Res.ok { head := some newNode, tail := some newNode, heap := heap0 }
  else do
    let heap1 ← assign heap0 (some newNode) (fun n => { n with next := s.head })
    let heap2 ← assign heap1 s.head (fun n => { n with prev := some newNode })
    Res.ok { head := some newNode, tail := s.tail, heap := heap2 }

/-- Source: `Stack::remove` (lines 53-73). -/
def Stack.remove (fuel : Nat) (data : Int) (s : DoublyLinkedList) : Res DoublyLinkedList := do
  let temp ← searchLoop fuel s.heap data s.head
  match temp with
  | none => Res.ok s
  | some t =>
    if temp = s.head then do
      let hd ← deref s.heap s.head
      let head1 := hd.next
      let heap1 ← if head1 ≠ none then assign s.heap head1 (fun n => { n with prev := none })
                  else Res.ok s.heap
      Res.ok { head := head1, tail := s.tail, heap := free heap1 t }
    else if temp = s.tail then do
      let tl ← deref s.heap s.tail
      let tail1 := tl.prev
      let heap1 ← if tail1 ≠ none then assign s.heap tail1 (fun n => { n with next := none })
                  else Res.ok s.heap
      Res.ok { head := s.head, tail := tail1, heap := free heap1 t }
    else do
      let tn ← deref s.heap temp
      let heap1 ← assign s.heap tn.prev (fun n => { n with next := tn.next })
      let tn1 ← deref heap1 temp
      let heap2 ← assign heap1 tn1.next (fun n => { n with prev := tn1.prev })
      Res.ok { head := s.head, tail := s.tail, heap := free heap2 t }

/-- Source: `Queue::insert` (lines 79-89). -/
def Queue.insert (data : Int) (s : DoublyLinkedList) : Res DoublyLinkedList :=
  let newNode := s.heap.length
  let heap0 := s.heap ++ [some (Node.new data)]
  if s.tail = none then
    Res.ok { head := some newNode, tail := some newNode, heap := heap0 }
  else do
    let heap1 ← assign heap0 s.tail (fun n => { n with next := some newNode })
    let heap2 ← assign heap1 (some newNode) (fun n => { n with prev := s.tail })
    Res.ok { head := s.head, tail := some newNode, heap := heap2 }

/-- Source: `Queue::remove` (lines 91-111). -/
def Queue.remove (fuel : Nat) (data : Int) (s : DoublyLinkedList) : Res DoublyLinkedList := do
  let temp ← searchLoop fuel s.heap data s.head
  match temp with
  | none => Res.ok s
  | some t =>
    if temp = s.head then do
      let hd ← deref s.heap s.head
      let head1 := hd.next
      let heap1 ← if head1 ≠ none then assign s.heap head1 (fun n => { n with prev := none })
                  else Res.ok s.heap
      Res.ok { head := head1, tail := s.tail, heap := free heap1 t }
    else if temp = s.tail then do
      let tl ← deref s.heap s.tail
      let tail1 := tl.prev
      let heap1 ← if tail1 ≠ none then assign s.heap tail1 (fun n => { n with next := none })
                  else Res.ok s.heap
      Res.ok { head := s.head, tail := tail1, heap := free heap1 t }
    else do
      let tn ← deref s.heap temp
      let heap1 ← assign s.heap tn.prev (fun n => { n with next := tn.next })
      let tn1 ← deref heap1 temp
      let heap2 ← assign heap1 tn1.next (fun n => { n with prev := tn1.prev })
      Res.ok { head := s.head, tail := s.tail, heap := free heap2 t }

/-- A run of `insert` calls on a Stack, in the order of the list (as in `main`, lines
159-161, and the insert pass of `performanceTest`, lines 127-129). -/
def Stack.insertAll : List Int → DoublyLinkedList → Res DoublyLinkedList
  | [], s => Res.ok s
  | v :: vs, s =>
    match Stack.insert v s with
    | Res.fault e => Res.fault e
    | Res.ok s1 => Stack.insertAll vs s1

/-- A run of `insert` calls on a Queue, in the order of the list (lines 170-172). -/
def Queue.insertAll : List Int → DoublyLinkedList → Res DoublyLinkedList
  | [], s => Res.ok s
  | v :: vs, s =>
    match Queue.insert v s with
    | Res.fault e => Res.fault e
    | Res.ok s1 => Queue.insertAll vs s1

/-- The state of `myStack` in `main` after the three inserts of lines 159-161 (the
nodes 10, 20, 30 were allocated in this order, at addresses 0, 1, 2). -/
def mainStack : DoublyLinkedList :=
  ⟨some 2, some 0,
    [some ⟨10, some 1, none⟩, some ⟨20, some 2, some 0⟩, some ⟨30, none, some 1⟩]⟩

/-- One call of the list interface (`insert` and `remove` of `DoublyLinkedList`). -/
inductive Op where
  | insert : Int → Op
  | remove : Int → Op
  deriving DecidableEq, Repr

/-- A history of calls applied to a Stack, left to right. -/
def Stack.run (fuel : Nat) : List Op → DoublyLinkedList → Res DoublyLinkedList
  | [], s => Res.ok s
  | Op.insert v :: ops, s =>
    match Stack.insert v s with
    | Res.fault e => Res.fault e
    | Res.ok s1 => Stack.run fuel ops s1
  | Op.remove v :: ops, s =>
    match Stack.remove fuel v s with
    | Res.fault e => Res.fault e
    | Res.ok s1 => Stack.run fuel ops s1

/-- A history of calls applied to a Queue, left to right. -/
def Queue.run (fuel : Nat) : List Op → DoublyLinkedList → Res DoublyLinkedList
  | [], s => Res.ok s
  | Op.insert v :: ops, s =>
    match Queue.insert v s with
    | Res.fault e => Res.fault e
    | Res.ok s1 => Queue.run fuel ops s1
  | Op.remove v :: ops, s =>
    match Queue.remove fuel v s with
    | Res.fault e => Res.fault e
    | Res.ok s1 => Queue.run fuel ops s1

/-- The abstract list model in the words of the specification: `insert v` prepends
`v`, `remove v` deletes the first occurrence of `v` if there is one. -/
def specStackStep (l : List Int) : Op → List Int
  | Op.insert v => v :: l
  | Op.remove v => l.erase v

/-- The abstract list model run over a history of calls. -/
def specStackRun (ops : List Op) (l : List Int) : List Int :=
  ops.foldl specStackStep l

/-! ## Description of list states -/

/-- Payload stored at an address (0 for an address that holds no live node). -/
def dataAt (h : Heap) (a : Nat) : Int :=
  match lookup h a with
  | some n => n.data
  | none => 0

/-- The pointer to the first node of `as`, or `q` when `as` is empty. -/
def first (as : List Nat) (q : Option Nat) : Option Nat :=
  match as with
  | [] => q
  | a :: _ => some a

/-- The pointer to the last node of `as`, or `p` when `as` is empty. -/
def final (as : List Nat) (p : Option Nat) : Option Nat :=
  match as.getLast? with
  | none => p
  | some a => some a

/-- Successor chain: starting at pointer `p` and following `next` visits exactly the
live nodes at addresses `as`, in order, and then reaches `nullptr`. -/
def Chain (h : Heap) : Option Nat → List Nat → Prop
  | p, [] => p = none
  | p, a :: rest => p = some a ∧ ∃ n, lookup h a = some n ∧ Chain h n.next rest

/-- Doubly linked segment: the nodes at addresses `as` are live, each one's `next` is
the following address (`q` after the last) and each one's `prev` is the preceding
address (`p` before the first). -/
def Seg (h : Heap) : Option Nat → List Nat → Option Nat → Prop
  | _, [], _ => True
  | p, a :: rest, q =>
    ∃ n, lookup h a = some n ∧ n.prev = p ∧ n.next = first rest q ∧ Seg h (some a) rest q

/-- The invariants of the data model (spec section 3) for a list whose nodes, from head
to tail, live at the addresses `as`: head and tail are the first and last of them (both
absent when there are none), successor links lead from head through all of them to
`nullptr`, and predecessor links lead back from tail through the same nodes. -/
def WellFormed (s : DoublyLinkedList) (as : List Nat) : Prop :=
  s.head = as.head? ∧ s.tail = as.getLast? ∧ Seg s.heap none as none ∧ as.Nodup

/-- The part of `WellFormed` that does not constrain `tail` of an empty list. -/
def Linked (s : DoublyLinkedList) (as : List Nat) : Prop :=
  s.head = as.head? ∧ (as ≠ [] → s.tail = as.getLast?) ∧ Seg s.heap none as none ∧ as.Nodup

/-- The remove pass of `performanceTest` (lines 135-137): `remove` is called for every
value of `data`, in order. -/
def Stack.removeAll (fuel : Nat) : List Int → DoublyLinkedList → Res DoublyLinkedList
  | [], s => Res.ok s
  | v :: vs, s =>
    match Stack.remove fuel v s with
    | Res.fault e => Res.fault e
    | Res.ok s1 => Stack.removeAll fuel vs s1

/-- One pass of the loop body of `performanceTest` on a Stack (lines 127-137): every
value of `data` is inserted, then every value of `data` is removed, both in the order
of `data`. -/
def Stack.benchmarkPass (fuel : Nat) (data : List Int) (s : DoublyLinkedList) :
    Res DoublyLinkedList :=
  match Stack.insertAll data s with
  | Res.fault e => Res.fault e
  | Res.ok s1 => Stack.removeAll fuel data s1

/-! ## Basic facts -/

@[simp] theorem Res.ok_bind {α β : Type} (a : α) (f : α → Res β) :
    (Res.ok a >>= f) = f a := rfl

@[simp] theorem Res.fault_bind {α β : Type} (e : Fault) (f : α → Res β) :
    (Res.fault e >>= f) = Res.fault e := rfl

theorem lookup_lt {h : Heap} {a : Nat} {n : Node} (hl : lookup h a = some n) :
    a < h.length := by
  by_contra hc
  have : h[a]? = none := List.getElem?_eq_none (by omega)
  simp [lookup, this] at hl

theorem lookup_set_self {h : Heap} {a : Nat} {n : Node} (hl : lookup h a = some n)
    (x : Option Node) : lookup (h.set a x) a = x := by
  have := lookup_lt hl
  simp [lookup, List.getElem?_set_self this]

theorem lookup_set_ne {h : Heap} {a b : Nat} (hne : a ≠ b) (x : Option Node) :
    lookup (h.set a x) b = lookup h b := by
  simp [lookup, List.getElem?_set_ne hne]

theorem lookup_append {h : Heap} {a : Nat} {n : Node} (hl : lookup h a = some n)
    (x : Option Node) : lookup (h ++ [x]) a = some n := by
  have := lookup_lt hl
  simpa [lookup, List.getElem?_append_left this] using hl

theorem lookup_append_new (h : Heap) (x : Option Node) :
    lookup (h ++ [x]) h.length = x := by
  simp [lookup]

theorem dataAt_eq {h : Heap} {a : Nat} {n : Node} (hl : lookup h a = some n) :
    dataAt h a = n.data := by
  simp [dataAt, hl]

theorem deref_eq {h : Heap} {a : Nat} {n : Node} (hl : lookup h a = some n) :
    deref h (some a) = Res.ok n := by
  simp [deref, hl]

theorem assign_eq {h : Heap} {a : Nat} {n : Node} (hl : lookup h a = some n)
    (f : Node → Node) : assign h (some a) f = Res.ok (h.set a (some (f n))) := by
  simp [assign, hl]

theorem queue_remove_eq_stack_remove (fuel : Nat) (v : Int) (s : DoublyLinkedList) :
    Queue.remove fuel v s = Stack.remove fuel v s := rfl

theorem first_append (xs ys : List Nat) (q : Option Nat) :
    first (xs ++ ys) q = first xs (first ys q) := by
  cases xs <;> rfl

theorem first_none_eq_head? (as : List Nat) : first as none = as.head? := by
  cases as <;> rfl

theorem final_cons (a : Nat) (xs : List Nat) (p : Option Nat) :
    final (a :: xs) p = final xs (some a) := by
  cases xs with
  | nil => simp [final]
  | cons b r =>
    simp only [final, List.getLast?_cons_cons]
    cases hgl : (b :: r).getLast? with
    | none => simp at hgl
    | some c => rfl

theorem final_none_eq_getLast? (as : List Nat) : final as none = as.getLast? := by
  unfold final
  cases as.getLast? <;> rfl

theorem final_concat (xs : List Nat) (a : Nat) (p : Option Nat) :
    final (xs ++ [a]) p = some a := by
  simp [final, List.getLast?_concat]

/-! ### Segments -/

theorem Seg.set_of_not_mem {h : Heap} {b : Nat} (x : Option Node) :
    ∀ {as : List Nat} {p q : Option Nat}, b ∉ as → Seg h p as q → Seg (h.set b x) p as q
  | [], _, _, _, _ => trivial
  | a :: rest, _, _, hb, ⟨n, hl, hp, hn, hs⟩ => by
    have hba : b ≠ a := fun e => hb (by simp [e])
    have hbr : b ∉ rest := fun e => hb (by simp [e])
    exact ⟨n, by rw [lookup_set_ne hba]; exact hl, hp, hn, Seg.set_of_not_mem x hbr hs⟩

theorem Seg.append_heap {h : Heap} (x : Option Node) :
    ∀ {as : List Nat} {p q : Option Nat}, Seg h p as q → Seg (h ++ [x]) p as q
  | [], _, _, _ => trivial
  | _ :: _, _, _, ⟨n, hl, hp, hn, hs⟩ =>
    ⟨n, lookup_append hl x, hp, hn, Seg.append_heap x hs⟩

theorem Seg.lt_length {h : Heap} :
    ∀ {as : List Nat} {p q : Option Nat}, Seg h p as q → ∀ a ∈ as, a < h.length
  | [], _, _, _, _, ha => by simp at ha
  | b :: rest, _, _, ⟨_, hl, _, _, hs⟩, a, ha => by
    rcases List.mem_cons.1 ha with e | e
    · subst e; exact lookup_lt hl
    · exact Seg.lt_length hs a e

theorem Seg.live {h : Heap} :
    ∀ {as : List Nat} {p q : Option Nat}, Seg h p as q → ∀ a ∈ as, ∃ n, lookup h a = some n
  | [], _, _, _, _, ha => by simp at ha
  | b :: rest, _, _, ⟨n, hl, _, _, hs⟩, a, ha => by
    rcases List.mem_cons.1 ha with e | e
    · subst e; exact ⟨n, hl⟩
    · exact Seg.live hs a e

theorem seg_append (h : Heap) :
    ∀ (xs ys : List Nat) (p q : Option Nat),
      Seg h p (xs ++ ys) q ↔ Seg h p xs (first ys q) ∧ Seg h (final xs p) ys q
  | [], ys, p, q => by simp [Seg, final]
  | a :: xs, ys, p, q => by
    have ih := seg_append h xs ys (some a) q
    have hf : first (xs ++ ys) q = first xs (first ys q) := first_append xs ys q
    rw [final_cons]
    constructor
    · rintro ⟨n, hl, hp, hn, hs⟩
      exact ⟨⟨n, hl, hp, hf ▸ hn, (ih.1 hs).1⟩, (ih.1 hs).2⟩
    · rintro ⟨⟨n, hl, hp, hn, hs⟩, hs2⟩
      exact ⟨n, hl, hp, hf ▸ hn, ih.2 ⟨hs, hs2⟩⟩

/-- Redirecting the `prev` link of the first node of a segment. -/
theorem Seg.set_prev {h : Heap} {a : Nat} {rest : List Nat} {p q : Option Nat} {n : Node}
    (hs : Seg h p (a :: rest) q) (hl : lookup h a = some n) (ha : a ∉ rest)
    (p1 : Option Nat) :
    Seg (h.set a (some { n with prev := p1 })) p1 (a :: rest) q := by
  obtain ⟨m, hm, _, hn, hr⟩ := hs
  have e : m = n := by rw [hl] at hm; exact (Option.some.inj hm).symm
  subst e
  exact ⟨_, lookup_set_self hl _, rfl, hn, Seg.set_of_not_mem _ ha hr⟩

/-- Redirecting the `next` link of the last node of a segment. -/
theorem Seg.set_next {h : Heap} {xs : List Nat} {a : Nat} {p q : Option Nat} {n : Node}
    (hs : Seg h p (xs ++ [a]) q) (hl : lookup h a = some n) (ha : a ∉ xs)
    (q1 : Option Nat) :
    Seg (h.set a (some { n with next := q1 })) p (xs ++ [a]) q1 := by
  rw [seg_append] at hs ⊢
  obtain ⟨h1, m, hm, hp, _, _⟩ := hs
  have e : m = n := by rw [hl] at hm; exact (Option.some.inj hm).symm
  subst e
  exact ⟨Seg.set_of_not_mem _ ha h1, _, lookup_set_self hl _, hp, rfl, trivial⟩

/-! ### Successor chains and the two loops -/

theorem Seg.to_chain {h : Heap} :
    ∀ {as : List Nat} {p : Option Nat}, Seg h p as none → Chain h (first as none) as
  | [], _, _ => rfl
  | _ :: _, _, ⟨n, hl, _, hn, hs⟩ => ⟨rfl, n, hl, by rw [hn]; exact Seg.to_chain hs⟩

theorem printLoop_of_chain {h : Heap} :
    ∀ {as : List Nat} {p : Option Nat} (fuel : Nat), Chain h p as → as.length < fuel →
      printLoop fuel h p = Res.ok (as.map (dataAt h))
  | [], _, fuel, hc, hf => by
    cases fuel with
    | zero => omega
    | succ k => cases hc; rfl
  | a :: rest, _, fuel, ⟨hp, n, hl, hc⟩, hf => by
    cases fuel with
    | zero => omega
    | succ k =>
      subst hp
      have ih := printLoop_of_chain k hc (by simpa using hf)
      simp [printLoop, deref_eq hl, ih, dataAt_eq hl]

theorem searchLoop_not_found {h : Heap} {v : Int} :
    ∀ {as : List Nat} {p : Option Nat} (fuel : Nat), Chain h p as → as.length < fuel →
      (∀ a ∈ as, dataAt h a ≠ v) → searchLoop fuel h v p = Res.ok none
  | [], _, fuel, hc, hf, _ => by
    cases fuel with
    | zero => omega
    | succ k => cases hc; rfl
  | a :: rest, _, fuel, ⟨hp, n, hl, hc⟩, hf, hv => by
    cases fuel with
    | zero => omega
    | succ k =>
      subst hp
      have hd : n.data ≠ v := by
        have := hv a (by simp)
        rwa [dataAt_eq hl] at this
      have ih := searchLoop_not_found k hc (by simpa using hf)
        (fun b hb => hv b (by simp [hb]))
      simp [searchLoop, deref_eq hl, hd, ih]

theorem searchLoop_found {h : Heap} {v : Int} {t : Nat} {suf : List Nat} :
    ∀ {pre : List Nat} {p : Option Nat} (fuel : Nat), Chain h p (pre ++ t :: suf) →
      pre.length < fuel → (∀ a ∈ pre, dataAt h a ≠ v) → dataAt h t = v →
      searchLoop fuel h v p = Res.ok (some t)
  | [], _, fuel, ⟨hp, n, hl, _⟩, hf, _, ht => by
    cases fuel with
    | zero => omega
    | succ k =>
      subst hp
      have hd : n.data = v := by rwa [dataAt_eq hl] at ht
      simp [searchLoop, deref_eq hl, hd]
  | a :: pre, _, fuel, ⟨hp, n, hl, hc⟩, hf, hv, ht => by
    cases fuel with
    | zero => omega
    | succ k =>
      subst hp
      have hd : n.data ≠ v := by
        have := hv a (by simp)
        rwa [dataAt_eq hl] at this
      have ih := searchLoop_found k hc (by simpa using hf)
        (fun b hb => hv b (by simp [hb])) ht
      simp [searchLoop, deref_eq hl, hd, ih]

/-! ### Payloads under heap updates -/

theorem dataAt_set_same_data {h : Heap} {a : Nat} {n m : Node} (hl : lookup h a = some n)
    (hd : m.data = n.data) (b : Nat) : dataAt (h.set a (some m)) b = dataAt h b := by
  by_cases e : a = b
  · subst e
    simp [dataAt, lookup_set_self hl, hl, hd]
  · simp [dataAt, lookup_set_ne e]

theorem dataAt_set_prev {h : Heap} {a : Nat} {n : Node} (hl : lookup h a = some n)
    (p : Option Nat) (b : Nat) :
    dataAt (h.set a (some { n with prev := p })) b = dataAt h b :=
  dataAt_set_same_data (m := { n with prev := p }) hl rfl b

theorem dataAt_set_next {h : Heap} {a : Nat} {n : Node} (hl : lookup h a = some n)
    (q : Option Nat) (b : Nat) :
    dataAt (h.set a (some { n with next := q })) b = dataAt h b :=
  dataAt_set_same_data (m := { n with next := q }) hl rfl b

theorem dataAt_set_ne {h : Heap} {a b : Nat} (hne : a ≠ b) (x : Option Node) :
    dataAt (h.set a x) b = dataAt h b := by
  simp [dataAt, lookup_set_ne hne]

theorem dataAt_append {h : Heap} {b : Nat} (hb : b < h.length) (x : Option Node) :
    dataAt (h ++ [x]) b = dataAt h b := by
  simp [dataAt, lookup, List.getElem?_append_left hb]

theorem WellFormed.linked {s : DoublyLinkedList} {as : List Nat} (hw : WellFormed s as) :
    Linked s as :=
  ⟨hw.1, fun _ => hw.2.1, hw.2.2.1, hw.2.2.2⟩

theorem Linked.head_chain {s : DoublyLinkedList} {as : List Nat} (hl : Linked s as) :
    Chain s.heap s.head as := by
  have := Seg.to_chain hl.2.2.1
  rwa [first_none_eq_head?, ← hl.1] at this

/-! ### insert -/

theorem eq_nil_or_snoc (l : List Nat) : l = [] ∨ ∃ xs z, l = xs ++ [z] := by
  rcases List.eq_nil_or_concat l with e | ⟨xs, z, e⟩
  · exact Or.inl e
  · exact Or.inr ⟨xs, z, by rw [e, List.concat_eq_append]⟩

theorem assign_new (h : Heap) (n : Node) (f : Node → Node) :
    assign (h ++ [some n]) (some h.length) f = Res.ok (h ++ [some (f n)]) := by
  simp [assign, lookup_append_new]

theorem stack_insert_empty (v : Int) {s : DoublyLinkedList} (hh : s.head = none) :
    Stack.insert v s = Res.ok
      ⟨some s.heap.length, some s.heap.length, s.heap ++ [some (Node.new v)]⟩ := by
  simp [Stack.insert, hh]

theorem stack_insert_nonempty (v : Int) {s : DoublyLinkedList} {a : Nat} {n : Node}
    (hh : s.head = some a) (hn : lookup s.heap a = some n) :
    Stack.insert v s = Res.ok
      ⟨some s.heap.length, s.tail,
        (s.heap ++ [some (Node.mk v none (some a))]).set a
          (some { n with prev := some s.heap.length })⟩ := by
  have l1 : lookup (s.heap ++ [some (Node.mk v none (some a))]) a = some n :=
    lookup_append hn _
  simp only [Stack.insert, hh, assign_new, Node.new]
  simp [assign_eq l1]

theorem queue_insert_empty (v : Int) {s : DoublyLinkedList} (ht : s.tail = none) :
    Queue.insert v s = Res.ok
      ⟨some s.heap.length, some s.heap.length, s.heap ++ [some (Node.new v)]⟩ := by
  simp [Queue.insert, ht]

theorem queue_insert_nonempty (v : Int) {s : DoublyLinkedList} {z : Nat} {n : Node}
    (ht : s.tail = some z) (hn : lookup s.heap z = some n) :
    Queue.insert v s = Res.ok
      ⟨s.head, some s.heap.length,
        (s.heap.set z (some { n with next := some s.heap.length })) ++
          [some (Node.mk v (some z) none)]⟩ := by
  have lz : lookup (s.heap ++ [some (Node.new v)]) z = some n := lookup_append hn _
  have hz := lookup_lt hn
  simp only [Queue.insert, ht, assign_eq lz]
  have e : (s.heap ++ [some (Node.new v)]).set z (some { n with next := some s.heap.length })
      = s.heap.set z (some { n with next := some s.heap.length }) ++ [some (Node.new v)] := by
    rw [List.set_append_left _ _ hz]
  rw [e]
  have := assign_new (s.heap.set z (some { n with next := some s.heap.length })) (Node.new v)
    (fun m => { m with prev := some z })
  simp only [List.length_set, Node.new] at this
  simp [Node.new, this]

/-- Effect of `Stack::insert` on a linked list: the new node, at the fresh address, is
put in front, and the result satisfies the full invariants. -/
theorem stack_insert_spec {s : DoublyLinkedList} {as : List Nat} (v : Int)
    (hl : Linked s as) :
    ∃ s1, Stack.insert v s = Res.ok s1 ∧ WellFormed s1 (s.heap.length :: as) ∧
      lookup s1.heap s.heap.length = some { data := v, prev := none, next := s.head } ∧
      (∀ b ∈ as, dataAt s1.heap b = dataAt s.heap b) := by
  obtain ⟨hh, ht, hs, hnd⟩ := hl
  have hlt := Seg.lt_length hs
  have hnew : s.heap.length ∉ as := fun hm => absurd (hlt _ hm) (lt_irrefl _)
  cases as with
  | nil =>
    simp only [List.head?_nil] at hh
    refine ⟨_, stack_insert_empty v hh, ⟨rfl, rfl, ?_, by simp⟩, ?_, by simp⟩
    · exact ⟨Node.new v, lookup_append_new _ _, rfl, rfl, trivial⟩
    · simp [lookup_append_new, Node.new, hh]
  | cons a rest =>
    simp only [List.head?_cons] at hh
    obtain ⟨n, hn, hp, hnx, hr⟩ := hs
    have hane : s.heap.length ≠ a := fun e => hnew (by simp [e])
    have ha_rest : a ∉ rest := (List.nodup_cons.1 hnd).1
    have l1 : lookup (s.heap ++ [some (Node.mk v none (some a))]) a
        = some n := lookup_append hn _
    have lnew : lookup ((s.heap ++ [some (Node.mk v none (some a))]).set a
        (some { n with prev := some s.heap.length })) s.heap.length
        = some (Node.mk v none (some a)) := by
      rw [lookup_set_ne (Ne.symm hane)]; exact lookup_append_new _ _
    refine ⟨_, stack_insert_nonempty v hh hn, ⟨rfl, ?_, ?_, ?_⟩, ?_, ?_⟩
    · have := ht (by simp)
      simp only [this]
      cases rest <;> simp
    · refine ⟨_, lnew, rfl, rfl, ?_⟩
      exact Seg.set_prev (Seg.append_heap _ ⟨n, hn, hp, hnx, hr⟩) l1 ha_rest _
    · exact List.nodup_cons.2 ⟨hnew, hnd⟩
    · simp only [hh]
      exact lnew
    · intro b hb
      show dataAt ((s.heap ++ [some (Node.mk v none (some a))]).set a
        (some { n with prev := some s.heap.length })) b = dataAt s.heap b
      rw [dataAt_set_prev l1, dataAt_append (hlt b hb)]

/-- Effect of `Queue::insert` on a well-formed list: the new node, at the fresh address,
is put at the end. -/
theorem queue_insert_spec {s : DoublyLinkedList} {as : List Nat} (v : Int)
    (hw : WellFormed s as) :
    ∃ s1, Queue.insert v s = Res.ok s1 ∧ WellFormed s1 (as ++ [s.heap.length]) ∧
      lookup s1.heap s.heap.length = some { data := v, prev := s.tail, next := none } ∧
      (∀ b ∈ as, dataAt s1.heap b = dataAt s.heap b) := by
  obtain ⟨hh, ht, hs, hnd⟩ := hw
  have hlt := Seg.lt_length hs
  have hnew : s.heap.length ∉ as := fun hm => absurd (hlt _ hm) (lt_irrefl _)
  rcases eq_nil_or_snoc as with e | ⟨xs, z, e⟩
  · subst e
    simp only [List.head?_nil, List.getLast?_nil] at hh ht
    refine ⟨_, queue_insert_empty v ht, ⟨rfl, rfl, ?_, by simp⟩, ?_, by simp⟩
    · exact ⟨Node.new v, lookup_append_new _ _, rfl, rfl, trivial⟩
    · simp [lookup_append_new, Node.new, ht]
  · subst e
    rw [List.getLast?_concat] at ht
    have hz : z < s.heap.length := hlt z (by simp)
    obtain ⟨n, hn⟩ := Seg.live hs z (by simp)
    have hz_xs : z ∉ xs := by
      have := List.nodup_append.1 hnd
      exact fun hm => this.2.2 hm (by simp)
    have lnew : lookup (s.heap.set z (some { n with next := some s.heap.length }) ++
        [some (Node.mk v (some z) none)]) s.heap.length
        = some (Node.mk v (some z) none) := by
      have := lookup_append_new (s.heap.set z (some { n with next := some s.heap.length }))
        (some (Node.mk v (some z) none))
      simpa only [List.length_set] using this
    refine ⟨_, queue_insert_nonempty v ht hn, ⟨?_, ?_, ?_, ?_⟩, ?_, ?_⟩
    · simp only [hh]
      cases xs <;> simp
    · simp [List.getLast?_concat]
    · rw [seg_append]
      refine ⟨?_, _, lnew, ?_, rfl, trivial⟩
      · have := Seg.append_heap (some (Node.mk v (some z) none))
          (Seg.set_next hs hn hz_xs (some s.heap.length))
        simpa [first] using this
      · simp [final_concat]
    · rw [List.nodup_append]
      exact ⟨hnd, by simp, by
        intro a ha hb
        simp only [List.mem_singleton] at hb
        exact hnew (hb ▸ ha)⟩
    · rw [ht]; exact lnew
    · intro b hb
      have hb2 : b < (s.heap.set z (some { n with next := some s.heap.length })).length := by
        simpa using hlt b hb
      show dataAt (s.heap.set z (some { n with next := some s.heap.length }) ++
        [some (Node.mk v (some z) none)]) b = dataAt s.heap b
      rw [dataAt_append hb2, dataAt_set_next hn]

/-! ### remove -/

theorem stack_remove_not_found {fuel : Nat} {v : Int} {s : DoublyLinkedList}
    (hs : searchLoop fuel s.heap v s.head = Res.ok none) :
    Stack.remove fuel v s = Res.ok s := by
  simp [Stack.remove, hs]

theorem stack_remove_only {fuel : Nat} {v : Int} {s : DoublyLinkedList} {t : Nat} {nt : Node}
    (hs : searchLoop fuel s.heap v s.head = Res.ok (some t)) (hh : s.head = some t)
    (ht : lookup s.heap t = some nt) (hn : nt.next = none) :
    Stack.remove fuel v s = Res.ok ⟨none, s.tail, free s.heap t⟩ := by
  rw [hh] at hs
  simp [Stack.remove, hs, hh, deref_eq ht, hn]

theorem stack_remove_head {fuel : Nat} {v : Int} {s : DoublyLinkedList} {t b : Nat}
    {nt nb : Node}
    (hs : searchLoop fuel s.heap v s.head = Res.ok (some t)) (hh : s.head = some t)
    (ht : lookup s.heap t = some nt) (hn : nt.next = some b) (hb : lookup s.heap b = some nb) :
    Stack.remove fuel v s =
      Res.ok ⟨some b, s.tail, free (s.heap.set b (some { nb with prev := none })) t⟩ := by
  rw [hh] at hs
  simp [Stack.remove, hs, hh, deref_eq ht, hn, assign_eq hb]

theorem stack_remove_tail {fuel : Nat} {v : Int} {s : DoublyLinkedList} {t b : Nat}
    {nt nb : Node}
    (hs : searchLoop fuel s.heap v s.head = Res.ok (some t)) (hh : s.head ≠ some t)
    (htl : s.tail = some t)
    (ht : lookup s.heap t = some nt) (hp : nt.prev = some b) (hb : lookup s.heap b = some nb) :
    Stack.remove fuel v s =
      Res.ok ⟨s.head, some b, free (s.heap.set b (some { nb with next := none })) t⟩ := by
  have hh2 : ¬ (some t = s.head) := fun e => hh e.symm
  simp [Stack.remove, hs, hh2, htl, deref_eq ht, hp, assign_eq hb]

theorem stack_remove_middle {fuel : Nat} {v : Int} {s : DoublyLinkedList} {t x y : Nat}
    {nt nx ny : Node}
    (hs : searchLoop fuel s.heap v s.head = Res.ok (some t)) (hh : s.head ≠ some t)
    (htl : s.tail ≠ some t)
    (ht : lookup s.heap t = some nt) (hp : nt.prev = some x) (hn : nt.next = some y)
    (hx : lookup s.heap x = some nx) (hy : lookup s.heap y = some ny)
    (hxt : x ≠ t) (hxy : x ≠ y) :
    Stack.remove fuel v s =
      Res.ok ⟨s.head, s.tail,
        free ((s.heap.set x (some { nx with next := some y })).set y
          (some { ny with prev := some x })) t⟩ := by
  have hh2 : ¬ (some t = s.head) := fun e => hh e.symm
  have ht2 : ¬ (some t = s.tail) := fun e => htl e.symm
  have l1 : lookup (s.heap.set x (some { nx with next := some y })) t = some nt := by
    rw [lookup_set_ne hxt]; exact ht
  have l2 : lookup (s.heap.set x (some { nx with next := some y })) y = some ny := by
    rw [lookup_set_ne hxy]; exact hy
  simp only [Stack.remove, hs, Res.ok_bind, hh2, ht2, if_false, deref_eq ht, hp, hn,
    assign_eq hx, deref_eq l1, assign_eq l2]

theorem nodup_split {pre suf : List Nat} {t : Nat} (h : (pre ++ t :: suf).Nodup) :
    pre.Nodup ∧ suf.Nodup ∧ t ∉ pre ∧ t ∉ suf ∧ (∀ a ∈ pre, a ∉ suf) ∧ (pre ++ suf).Nodup := by
  have h1 := List.nodup_middle.1 h
  obtain ⟨hnot, hps⟩ := List.nodup_cons.1 h1
  obtain ⟨hp, hsf, hd⟩ := List.nodup_append.1 hps
  refine ⟨hp, hsf, fun m => hnot (by simp [m]), fun m => hnot (by simp [m]), ?_, hps⟩
  intro a ha hb
  exact hd ha hb

theorem getLast?_append_cons (pre : List Nat) (y : Nat) (r : List Nat) :
    (pre ++ y :: r).getLast? = (y :: r).getLast? := by
  have h : (y :: r).getLast? = some ((y :: r).getLast (by simp)) :=
    List.getLast?_eq_getLast _ _
  rw [List.getLast?_append, h]
  rfl

theorem getLast?_mem_of_eq {l : List Nat} {a : Nat} (h : l.getLast? = some a) : a ∈ l :=
  List.mem_of_getLast?_eq_some h

/-- Effect of `remove` when the first node holding `v` is at address `t`, with the
nodes `pre` before it and the nodes `suf` after it: the call returns, and the list is
linked over `pre ++ suf` with all remaining payloads untouched. -/
theorem stack_remove_spec {s : DoublyLinkedList} {pre suf : List Nat} {t : Nat} {v : Int}
    (hl : Linked s (pre ++ t :: suf)) (hpre : ∀ a ∈ pre, dataAt s.heap a ≠ v)
    (ht : dataAt s.heap t = v) (fuel : Nat) (hf : pre.length < fuel) :
    ∃ s1, Stack.remove fuel v s = Res.ok s1 ∧ Linked s1 (pre ++ suf) ∧
      (∀ b ∈ pre ++ suf, dataAt s1.heap b = dataAt s.heap b) := by
  have hsearch := searchLoop_found fuel hl.head_chain hf hpre ht
  obtain ⟨hh, htl, hseg, hnd⟩ := hl
  obtain ⟨hndp, hnds, htp, hts, hdisj, hndps⟩ := nodup_split hnd
  replace htl := htl (by simp)
  rw [seg_append] at hseg
  obtain ⟨hsegp, nt, hlt, hprev, hnext, hsegs⟩ := hseg
  rcases eq_nil_or_snoc pre with e | ⟨xs, x, e⟩
  · -- the match is the head
    subst e
    simp only [List.nil_append, List.head?_cons] at hh htl ⊢
    cases suf with
    | nil =>
      refine ⟨_, stack_remove_only hsearch hh hlt hnext, ⟨rfl, by simp, trivial, by simp⟩,
        by simp⟩
    | cons b r =>
      obtain ⟨nb, hlb, hpb, hnb, hr⟩ := hsegs
      have hbr : b ∉ r := (List.nodup_cons.1 hnds).1
      refine ⟨_, stack_remove_head hsearch hh hlt hnext hlb, ⟨rfl, ?_, ?_, hnds⟩, ?_⟩
      · intro _
        simpa using htl
      · exact Seg.set_of_not_mem _ hts (Seg.set_prev ⟨nb, hlb, hpb, hnb, hr⟩ hlb hbr none)
      · intro c hc
        have hct : t ≠ c := fun e => hts (e ▸ hc)
        show dataAt (free (s.heap.set b (some { nb with prev := none })) t) c = _
        rw [free, dataAt_set_ne hct, dataAt_set_prev hlb]
  · subst e
    have hxxs : x ∉ xs := by
      have := List.nodup_append.1 hndp
      exact fun hm => this.2.2 hm (by simp)
    have hxt : x ≠ t := fun e => htp (by simp [e])
    obtain ⟨nx, hlx⟩ := Seg.live hsegp x (by simp)
    rw [final_concat] at hprev
    have hhead : s.head ≠ some t := by
      rw [hh]
      intro e
      have : t ∈ xs ++ [x] := by
        cases xs with
        | nil => simp at e; simp [e]
        | cons c r => simp at e; simp [e]
      exact htp this
    have hhead1 : s.head = (xs ++ [x]).head? := by
      rw [hh]; cases xs <;> simp
    cases suf with
    | nil =>
      -- the match is the tail
      rw [getLast?_append_cons, List.getLast?_singleton] at htl
      refine ⟨_, stack_remove_tail hsearch hhead htl hlt hprev hlx,
        ⟨by simpa using hhead1, by simp [List.getLast?_concat], ?_, by simpa using hndp⟩, ?_⟩
      · rw [List.append_nil]
        exact Seg.set_of_not_mem _ htp (Seg.set_next hsegp hlx hxxs none)
      · intro c hc
        rw [List.append_nil] at hc
        have hct : t ≠ c := fun e => htp (e ▸ hc)
        show dataAt (free (s.heap.set x (some { nx with next := none })) t) c = _
        rw [free, dataAt_set_ne hct, dataAt_set_next hlx]
    | cons y r =>
      -- the match is an inner node
      obtain ⟨ny, hly, hpy, hny, hr⟩ := hsegs
      have hyr : y ∉ r := (List.nodup_cons.1 hnds).1
      have hxy : x ≠ y := fun e => hdisj x (by simp) (by simp [e])
      have hypre : y ∉ xs ++ [x] := fun hm => hdisj y hm (by simp)
      have hxsuf : x ∉ y :: r := hdisj x (by simp)
      have htail : s.tail ≠ some t := by
        rw [htl]
        intro e
        rw [getLast?_append_cons, List.getLast?_cons_cons] at e
        exact hts (getLast?_mem_of_eq e)
      have l2 : lookup (s.heap.set x (some { nx with next := some y })) y = some ny := by
        rw [lookup_set_ne hxy]; exact hly
      refine ⟨_, stack_remove_middle hsearch hhead htail hlt hprev hnext hlx hly hxt hxy,
        ⟨?_, ?_, ?_, hndps⟩, ?_⟩
      · show s.head = _
        rw [hhead1]; cases xs <;> simp
      · intro _
        show s.tail = _
        rw [htl, getLast?_append_cons, List.getLast?_cons_cons, getLast?_append_cons]
      · show Seg (free ((s.heap.set x (some { nx with next := some y })).set y
          (some { ny with prev := some x })) t) none (xs ++ [x] ++ y :: r) none
        rw [seg_append, final_concat]
        constructor
        · refine Seg.set_of_not_mem _ htp (Seg.set_of_not_mem _ hypre ?_)
          exact Seg.set_next hsegp hlx hxxs (some y)
        · refine Seg.set_of_not_mem _ hts ?_
          have h0 : Seg s.heap (some t) (y :: r) none := ⟨ny, hly, hpy, hny, hr⟩
          exact Seg.set_prev (Seg.set_of_not_mem _ hxsuf h0) l2 hyr (some x)
      · intro c hc
        have hct : t ≠ c := by
          intro e
          rcases List.mem_append.1 hc with h1 | h1
          · exact htp (e ▸ h1)
          · exact hts (e ▸ h1)
        show dataAt (free ((s.heap.set x (some { nx with next := some y })).set y
          (some { ny with prev := some x })) t) c = _
        rw [free, dataAt_set_ne hct, dataAt_set_prev l2, dataAt_set_next hlx]

/-- When `v` is not the payload of any node of the successor chain from head, `remove`
returns and leaves the whole state as it was. -/
theorem stack_remove_absent {s : DoublyLinkedList} {as : List Nat} {v : Int}
    (hc : Chain s.heap s.head as) (hv : ∀ a ∈ as, dataAt s.heap a ≠ v)
    (fuel : Nat) (hf : as.length < fuel) :
    Stack.remove fuel v s = Res.ok s :=
  stack_remove_not_found (searchLoop_not_found fuel hc hf hv)

theorem Linked.wellFormed {s : DoublyLinkedList} {as : List Nat} (hl : Linked s as)
    (hne : as ≠ []) : WellFormed s as :=
  ⟨hl.1, hl.2.1 hne, hl.2.2.1, hl.2.2.2⟩

theorem linked_print {s : DoublyLinkedList} {as : List Nat} (hl : Linked s as)
    (fuel : Nat) (hf : as.length < fuel) :
    printContents fuel s = Res.ok (as.map (dataAt s.heap)) :=
  printLoop_of_chain fuel hl.head_chain hf

/-! ### Payload sequences -/

theorem first_match_split (f : Nat → Int) (v : Int) :
    ∀ (as : List Nat), v ∈ as.map f →
      ∃ pre t suf, as = pre ++ t :: suf ∧ (∀ a ∈ pre, f a ≠ v) ∧ f t = v
  | [], h => by simp at h
  | a :: rest, h => by
    by_cases e : f a = v
    · exact ⟨[], a, rest, rfl, by simp, e⟩
    · have hr : v ∈ rest.map f := by
        rw [List.map_cons] at h
        rcases List.mem_cons.1 h with h1 | h1
        · exact absurd h1.symm e
        · exact h1
      obtain ⟨pre, t, suf, he, hp, ht⟩ := first_match_split f v rest hr
      refine ⟨a :: pre, t, suf, by rw [he]; rfl, ?_, ht⟩
      intro b hb
      rcases List.mem_cons.1 hb with h1 | h1
      · rw [h1]; exact e
      · exact hp b h1

theorem map_erase_split (f : Nat → Int) (v : Int) (pre suf : List Nat) (t : Nat)
    (hp : ∀ a ∈ pre, f a ≠ v) (ht : f t = v) :
    ((pre ++ t :: suf).map f).erase v = (pre ++ suf).map f := by
  have hnot : v ∉ pre.map f := by
    intro hm
    obtain ⟨a, ha, e⟩ := List.mem_map.1 hm
    exact hp a ha e
  rw [List.map_append, List.map_append, List.map_cons, ht,
    List.erase_append_right _ hnot, List.erase_cons_head]

theorem stack_insert_payload {s : DoublyLinkedList} {as : List Nat} (v : Int)
    (hl : Linked s as) :
    ∃ s1, Stack.insert v s = Res.ok s1 ∧ WellFormed s1 (s.heap.length :: as) ∧
      (s.heap.length :: as).map (dataAt s1.heap) = v :: as.map (dataAt s.heap) := by
  obtain ⟨s1, he, hw, hnew, hold⟩ := stack_insert_spec v hl
  refine ⟨s1, he, hw, ?_⟩
  rw [List.map_cons, dataAt_eq hnew]
  exact congrArg _ (List.map_congr_left hold)

theorem queue_insert_payload {s : DoublyLinkedList} {as : List Nat} (v : Int)
    (hw : WellFormed s as) :
    ∃ s1, Queue.insert v s = Res.ok s1 ∧ WellFormed s1 (as ++ [s.heap.length]) ∧
      (as ++ [s.heap.length]).map (dataAt s1.heap) = as.map (dataAt s.heap) ++ [v] := by
  obtain ⟨s1, he, hw1, hnew, hold⟩ := queue_insert_spec v hw
  refine ⟨s1, he, hw1, ?_⟩
  rw [List.map_append, List.map_singleton, dataAt_eq hnew, List.map_congr_left hold]

/-- Effect of `remove` on the payload sequence of a linked list: the first occurrence
of `v`, if any, is deleted. -/
theorem stack_remove_payload {s : DoublyLinkedList} {as : List Nat} (v : Int)
    (hl : Linked s as) (fuel : Nat) (hf : as.length < fuel) :
    ∃ s1 as1, Stack.remove fuel v s = Res.ok s1 ∧ Linked s1 as1 ∧
      as1.map (dataAt s1.heap) = (as.map (dataAt s.heap)).erase v ∧
      as1.length ≤ as.length := by
  by_cases hv : v ∈ as.map (dataAt s.heap)
  · obtain ⟨pre, t, suf, he, hp, ht⟩ := first_match_split (dataAt s.heap) v as hv
    subst he
    have hf1 : pre.length < fuel := by
      simp only [List.length_append, List.length_cons] at hf
      omega
    obtain ⟨s1, hr, hl1, hd⟩ := stack_remove_spec hl hp ht fuel hf1
    refine ⟨s1, pre ++ suf, hr, hl1, ?_, by simp⟩
    rw [map_erase_split _ _ _ _ _ hp ht]
    exact List.map_congr_left hd
  · refine ⟨s, as, ?_, hl, (List.erase_of_not_mem hv).symm, le_refl _⟩
    refine stack_remove_absent hl.head_chain ?_ fuel hf
    intro a ha e
    exact hv (List.mem_map.2 ⟨a, ha, e⟩)

theorem linked_empty : Linked DoublyLinkedList.empty [] :=
  ⟨rfl, fun h => absurd rfl h, trivial, List.nodup_nil⟩

theorem wellFormed_empty : WellFormed DoublyLinkedList.empty [] :=
  ⟨rfl, rfl, trivial, List.nodup_nil⟩

theorem stack_insertAll_spec :
    ∀ (vs : List Int) (s : DoublyLinkedList) (as : List Nat), Linked s as →
      ∃ s1 as1, Stack.insertAll vs s = Res.ok s1 ∧ Linked s1 as1 ∧
        as1.map (dataAt s1.heap) = vs.reverse ++ as.map (dataAt s.heap) ∧
        as1.length = vs.length + as.length
  | [], s, as, hl => ⟨s, as, rfl, hl, by simp, by simp⟩
  | v :: vs, s, as, hl => by
    obtain ⟨s1, he, hw, hp⟩ := stack_insert_payload v hl
    obtain ⟨s2, as2, he2, hl2, hp2, hlen⟩ := stack_insertAll_spec vs s1 _ hw.linked
    refine ⟨s2, as2, by simp [Stack.insertAll, he, he2], hl2, ?_, ?_⟩
    · rw [hp2, hp]; simp
    · rw [hlen]; simp; omega

theorem queue_insertAll_spec :
    ∀ (vs : List Int) (s : DoublyLinkedList) (as : List Nat), WellFormed s as →
      ∃ s1 as1, Queue.insertAll vs s = Res.ok s1 ∧ WellFormed s1 as1 ∧
        as1.map (dataAt s1.heap) = as.map (dataAt s.heap) ++ vs ∧
        as1.length = as.length + vs.length
  | [], s, as, hw => ⟨s, as, rfl, hw, by simp, by simp⟩
  | v :: vs, s, as, hw => by
    obtain ⟨s1, he, hw1, hp⟩ := queue_insert_payload v hw
    obtain ⟨s2, as2, he2, hw2, hp2, hlen⟩ := queue_insertAll_spec vs s1 _ hw1
    refine ⟨s2, as2, by simp [Queue.insertAll, he, he2], hw2, ?_, ?_⟩
    · rw [hp2, hp]; simp
    · rw [hlen]; simp; omega

theorem stack_run_spec (fuel : Nat) :
    ∀ (ops : List Op) (s : DoublyLinkedList) (as : List Nat), Linked s as →
      as.length + ops.length < fuel →
      ∃ s1 as1, Stack.run fuel ops s = Res.ok s1 ∧ Linked s1 as1 ∧
        as1.map (dataAt s1.heap) = specStackRun ops (as.map (dataAt s.heap)) ∧
        as1.length ≤ as.length + ops.length
  | [], s, as, hl, _ => ⟨s, as, rfl, hl, rfl, by simp⟩
  | Op.insert v :: ops, s, as, hl, hf => by
    obtain ⟨s1, he, hw, hp⟩ := stack_insert_payload v hl
    have hf1 : (s.heap.length :: as).length + ops.length < fuel := by
      simp only [List.length_cons] at hf ⊢; omega
    obtain ⟨s2, as2, he2, hl2, hp2, hlen⟩ := stack_run_spec fuel ops s1 _ hw.linked hf1
    refine ⟨s2, as2, by simp [Stack.run, he, he2], hl2, ?_, ?_⟩
    · rw [hp2, hp]; rfl
    · simp only [List.length_cons] at hlen ⊢; omega
  | Op.remove v :: ops, s, as, hl, hf => by
    have hf0 : as.length < fuel := by omega
    obtain ⟨s1, as1, he, hl1, hp, hle⟩ := stack_remove_payload v hl fuel hf0
    have hf1 : as1.length + ops.length < fuel := by
      simp only [List.length_cons] at hf; omega
    obtain ⟨s2, as2, he2, hl2, hp2, hlen⟩ := stack_run_spec fuel ops s1 as1 hl1 hf1
    refine ⟨s2, as2, by simp [Stack.run, he, he2], hl2, ?_, ?_⟩
    · rw [hp2, hp]; rfl
    · simp only [List.length_cons]; omega

theorem remove_first_occurrence {s : DoublyLinkedList} {as : List Nat} {v : Int}
    (hl : Linked s as) (hv : v ∈ as.map (dataAt s.heap)) (fuel : Nat)
    (hf : as.length < fuel) :
    ∃ s1 pre suf, as.map (dataAt s.heap) = pre ++ v :: suf ∧ v ∉ pre ∧
      Stack.remove fuel v s = Res.ok s1 ∧ printContents fuel s1 = Res.ok (pre ++ suf) := by
  obtain ⟨pre, t, suf, he, hp, ht⟩ := first_match_split (dataAt s.heap) v as hv
  subst he
  have hlen : (pre ++ suf).length < fuel := by
    simp only [List.length_append, List.length_cons] at hf ⊢
    omega
  have hf1 : pre.length < fuel := by
    simp only [List.length_append] at hlen
    omega
  obtain ⟨s1, hr, hl1, hd⟩ := stack_remove_spec hl hp ht fuel hf1
  refine ⟨s1, pre.map (dataAt s.heap), suf.map (dataAt s.heap), ?_, ?_, hr, ?_⟩
  · rw [List.map_append, List.map_cons, ht]
  · intro hm
    obtain ⟨a, ha, e⟩ := List.mem_map.1 hm
    exact hp a ha e
  · rw [linked_print hl1 fuel hlen, List.map_congr_left hd, List.map_append]

/-- A removal that leaves at least one node keeps the data-model invariants. -/
theorem remove_wellFormed_of_nodes_remaining {s : DoublyLinkedList} {pre suf : List Nat}
    {t : Nat} {v : Int} (hw : WellFormed s (pre ++ t :: suf))
    (hpre : ∀ a ∈ pre, dataAt s.heap a ≠ v) (ht : dataAt s.heap t = v)
    (hne : pre ++ suf ≠ []) (fuel : Nat) (hf : pre.length < fuel) :
    ∃ s1, Stack.remove fuel v s = Res.ok s1 ∧ Queue.remove fuel v s = Res.ok s1 ∧
      WellFormed s1 (pre ++ suf) := by
  obtain ⟨s1, hr, hl1, -⟩ := stack_remove_spec hw.linked hpre ht fuel hf
  exact ⟨s1, hr, (queue_remove_eq_stack_remove fuel v s).trans hr, hl1.wellFormed hne⟩

/-- C1. For every finite sequence of values, inserting them one after the other into a
freshly constructed Stack succeeds, and `printContents` then yields the values in
reverse insertion order. -/
theorem c1_stack_prints_reverse_insertion_order (vs : List Int) (fuel : Nat)
    (hf : vs.length < fuel) :
    ∃ s, Stack.insertAll vs DoublyLinkedList.empty = Res.ok s ∧
      printContents fuel s = Res.ok vs.reverse := by
  obtain ⟨s, as, he, hl, hp, hlen⟩ := stack_insertAll_spec vs _ [] linked_empty
  refine ⟨s, he, ?_⟩
  rw [linked_print hl fuel (by rw [hlen]; simpa using hf), hp]
  simp

/-- C1, at the run of `main`: inserting 10, 20, 30 into a fresh Stack prints 30 20 10. -/
theorem c1_witness_main_stack :
    [(10 : Int), 20, 30].length < 4 ∧
    ∃ s, Stack.insertAll [10, 20, 30] DoublyLinkedList.empty = Res.ok s ∧
      printContents 4 s = Res.ok [30, 20, 10] :=
  ⟨by decide, c1_stack_prints_reverse_insertion_order [10, 20, 30] 4 (by decide)⟩

/-- C2. For every finite sequence of values, inserting them one after the other into a
freshly constructed Queue succeeds, and `printContents` then yields the values in
insertion order. -/
theorem c2_queue_prints_insertion_order (vs : List Int) (fuel : Nat)
    (hf : vs.length < fuel) :
    ∃ s, Queue.insertAll vs DoublyLinkedList.empty = Res.ok s ∧
      printContents fuel s = Res.ok vs := by
  obtain ⟨s, as, he, hw, hp, hlen⟩ := queue_insertAll_spec vs _ [] wellFormed_empty
  refine ⟨s, he, ?_⟩
  rw [linked_print hw.linked fuel (by rw [hlen]; simpa using hf), hp]
  simp

/-- C2, at the run of `main`: inserting 10, 20, 30 into a fresh Queue prints 10 20 30. -/
theorem c2_witness_main_queue :
    [(10 : Int), 20, 30].length < 4 ∧
    ∃ s, Queue.insertAll [10, 20, 30] DoublyLinkedList.empty = Res.ok s ∧
      printContents 4 s = Res.ok [10, 20, 30] :=
  ⟨by decide, c2_queue_prints_insertion_order [10, 20, 30] 4 (by decide)⟩

/-- C3. For a Stack or Queue built from the empty list by inserts, and a value `v` among
the inserted values: the printed sequence before `remove v` is `pre ++ v :: suf` with
`v` not in `pre` (so this `v` is the first occurrence from head), and the printed
sequence after `remove v` is `pre ++ suf`: all other elements, later duplicates of `v`
included, stay in order and the length drops by one. -/
theorem c3_remove_deletes_first_occurrence (vs : List Int) (v : Int) (hv : v ∈ vs)
    (fuel : Nat) (hf : vs.length < fuel) :
    (∃ s s1 pre suf, Stack.insertAll vs DoublyLinkedList.empty = Res.ok s ∧
      vs.reverse = pre ++ v :: suf ∧ v ∉ pre ∧
      printContents fuel s = Res.ok (pre ++ v :: suf) ∧
      Stack.remove fuel v s = Res.ok s1 ∧
      printContents fuel s1 = Res.ok (pre ++ suf) ∧
      (pre ++ suf).length + 1 = vs.length) ∧
    (∃ s s1 pre suf, Queue.insertAll vs DoublyLinkedList.empty = Res.ok s ∧
      vs = pre ++ v :: suf ∧ v ∉ pre ∧
      printContents fuel s = Res.ok (pre ++ v :: suf) ∧
      Queue.remove fuel v s = Res.ok s1 ∧
      printContents fuel s1 = Res.ok (pre ++ suf) ∧
      (pre ++ suf).length + 1 = vs.length) := by
  constructor
  · obtain ⟨s, as, he, hl, hp, hlen⟩ := stack_insertAll_spec vs _ [] linked_empty
    have hp1 : as.map (dataAt s.heap) = vs.reverse := by rw [hp]; simp
    have hlf : as.length < fuel := by rw [hlen]; simpa using hf
    have hm : v ∈ as.map (dataAt s.heap) := by rw [hp1]; simpa using hv
    obtain ⟨s1, pre, suf, hsplit, hnot, hr, hpr⟩ := remove_first_occurrence hl hm fuel hlf
    refine ⟨s, s1, pre, suf, he, by rw [← hp1, hsplit], hnot, ?_, hr, hpr, ?_⟩
    · rw [linked_print hl fuel hlf, hsplit]
    · have := congrArg List.length (hp1.symm.trans hsplit)
      simp only [List.length_reverse, List.length_append, List.length_cons] at this ⊢
      omega
  · obtain ⟨s, as, he, hw, hp, hlen⟩ := queue_insertAll_spec vs _ [] wellFormed_empty
    have hp1 : as.map (dataAt s.heap) = vs := by rw [hp]; simp
    have hlf : as.length < fuel := by rw [hlen]; simpa using hf
    have hm : v ∈ as.map (dataAt s.heap) := by rw [hp1]; exact hv
    obtain ⟨s1, pre, suf, hsplit, hnot, hr, hpr⟩ :=
      remove_first_occurrence hw.linked hm fuel hlf
    refine ⟨s, s1, pre, suf, he, by rw [← hp1, hsplit], hnot, ?_, ?_, hpr, ?_⟩
    · rw [linked_print hw.linked fuel hlf, hsplit]
    · rw [queue_remove_eq_stack_remove]; exact hr
    · have := congrArg List.length (hp1.symm.trans hsplit)
      simp only [List.length_append, List.length_cons] at this ⊢
      omega

/-- C3, at the run of `main` for the Stack (values 10, 20, 30, then `remove(20)`). -/
theorem c3_witness_main_stack :
    (20 : Int) ∈ [(10 : Int), 20, 30] ∧ [(10 : Int), 20, 30].length < 4 ∧
    ((∃ s s1 pre suf, Stack.insertAll [10, 20, 30] DoublyLinkedList.empty = Res.ok s ∧
      [(10 : Int), 20, 30].reverse = pre ++ 20 :: suf ∧ (20 : Int) ∉ pre ∧
      printContents 4 s = Res.ok (pre ++ 20 :: suf) ∧
      Stack.remove 4 20 s = Res.ok s1 ∧
      printContents 4 s1 = Res.ok (pre ++ suf) ∧
      (pre ++ suf).length + 1 = [(10 : Int), 20, 30].length) ∧
    (∃ s s1 pre suf, Queue.insertAll [10, 20, 30] DoublyLinkedList.empty = Res.ok s ∧
      [(10 : Int), 20, 30] = pre ++ 20 :: suf ∧ (20 : Int) ∉ pre ∧
      printContents 4 s = Res.ok (pre ++ 20 :: suf) ∧
      Queue.remove 4 20 s = Res.ok s1 ∧
      printContents 4 s1 = Res.ok (pre ++ suf) ∧
      (pre ++ suf).length + 1 = [(10 : Int), 20, 30].length)) :=
  ⟨by decide, by decide,
    c3_remove_deletes_first_occurrence [10, 20, 30] 20 (by decide) 4 (by decide)⟩

/-- The Stack demonstration of `main` (lines 159-166): after inserting 10, 20, 30 and
removing 20 the list prints 30 10. -/
theorem main_stack_demo :
    (Stack.insertAll [10, 20, 30] DoublyLinkedList.empty >>= Stack.remove 4 20
      >>= printContents 4) = Res.ok [30, 10] := by
  decide

/-- The Queue demonstration of `main` (lines 170-177): after inserting 10, 20, 30 and
removing 30 the list prints 10 20. -/
theorem main_queue_demo :
    (Queue.insertAll [10, 20, 30] DoublyLinkedList.empty >>= Queue.remove 4 30
      >>= printContents 4) = Res.ok [10, 20] := by
  decide

/-- C4. When `v` is not the payload of any node on the successor chain from head (the
chain visits the live nodes `as` and ends at `nullptr`), `remove v` returns without a
fault and the resulting state is the state before: head, tail and every cell of the
store are unchanged, hence so is what `printContents` yields. -/
theorem c4_remove_absent_value_is_noop (s : DoublyLinkedList) (as : List Nat) (v : Int)
    (hc : Chain s.heap s.head as) (hv : ∀ a ∈ as, dataAt s.heap a ≠ v)
    (fuel : Nat) (hf : as.length < fuel) :
    Stack.remove fuel v s = Res.ok s ∧ Queue.remove fuel v s = Res.ok s ∧
      printContents fuel s = Res.ok (as.map (dataAt s.heap)) :=
  ⟨stack_remove_absent hc hv fuel hf,
    (queue_remove_eq_stack_remove fuel v s).trans (stack_remove_absent hc hv fuel hf),
    printLoop_of_chain fuel hc hf⟩

/-- The three inserts of `main` produce `mainStack`. -/
theorem mainStack_eq :
    Stack.insertAll [10, 20, 30] DoublyLinkedList.empty = Res.ok mainStack := rfl

/-- C4, at `remove(999)` on the list 30 20 10 built by `main`. -/
theorem c4_witness_remove_999 :
    Chain mainStack.heap mainStack.head [2, 1, 0] ∧
    (∀ a ∈ [2, 1, 0], dataAt mainStack.heap a ≠ 999) ∧
    [2, 1, 0].length < 4 ∧
    (Stack.remove 4 999 mainStack = Res.ok mainStack ∧
      Queue.remove 4 999 mainStack = Res.ok mainStack ∧
      printContents 4 mainStack = Res.ok ([2, 1, 0].map (dataAt mainStack.heap))) :=
  ⟨⟨rfl, _, rfl, rfl, _, rfl, rfl, _, rfl, rfl⟩, by decide, by decide,
    c4_remove_absent_value_is_noop mainStack [2, 1, 0] 999
      ⟨rfl, _, rfl, rfl, _, rfl, rfl, _, rfl, rfl⟩ (by decide) 4 (by decide)⟩

/-- C5 (code defect). Starting from the empty list, `insert v` followed by `remove v`
leaves head absent but tail still holding the address of the deleted node, for the
Stack and for the Queue: the head branch of `remove` (lines 60-63 and 98-101) never
writes `tail`. -/
theorem c5_insert_remove_leaves_tail_dangling (v : Int) (fuel : Nat) :
    (Stack.insert v DoublyLinkedList.empty >>= Stack.remove (fuel + 1) v)
      = Res.ok ⟨none, some 0, [none]⟩ ∧
    (Queue.insert v DoublyLinkedList.empty >>= Queue.remove (fuel + 1) v)
      = Res.ok ⟨none, some 0, [none]⟩ := by
  constructor <;>
    simp [Stack.insert, Queue.insert, Stack.remove, Queue.remove, DoublyLinkedList.empty,
      searchLoop, deref, lookup, Node.new, free]

/-- C6 (code defect). The one-node list satisfies the data-model invariants, `remove`
of its value returns, and the resulting state (head absent, tail present) satisfies
them for no sequence of nodes. -/
theorem c6_remove_last_node_breaks_invariant :
    WellFormed ⟨some 0, some 0, [some ⟨5, none, none⟩]⟩ [0] ∧
    Stack.remove 2 5 ⟨some 0, some 0, [some ⟨5, none, none⟩]⟩
      = Res.ok ⟨none, some 0, [none]⟩ ∧
    Queue.remove 2 5 ⟨some 0, some 0, [some ⟨5, none, none⟩]⟩
      = Res.ok ⟨none, some 0, [none]⟩ ∧
    ¬ ∃ as, WellFormed ⟨none, some 0, [none]⟩ as := by
  refine ⟨⟨rfl, rfl, ⟨_, rfl, rfl, rfl, trivial⟩, by simp⟩, by decide, by decide, ?_⟩
  rintro ⟨as, hh, ht, -, -⟩
  cases as with
  | nil => simp at ht
  | cons a r => simp at hh

/-- C7 (code defect). A Queue emptied by removal has head absent and prints nothing,
yet `insert` does not make the new node head and tail: `tail` still holds the address
of the deleted node, so `Queue::insert` takes the branch for a non-empty queue and
writes through that pointer. -/
theorem c7_insert_into_emptied_queue (x v : Int) (fuel : Nat) :
    Queue.run (fuel + 1) [Op.insert x, Op.remove x] DoublyLinkedList.empty
      = Res.ok ⟨none, some 0, [none]⟩ ∧
    printContents (fuel + 1) ⟨none, some 0, [none]⟩ = Res.ok [] ∧
    Queue.insert v ⟨none, some 0, [none]⟩ = Res.fault Fault.useAfterFree ∧
    Queue.run (fuel + 1) [Op.insert x, Op.remove x, Op.insert v] DoublyLinkedList.empty
      = Res.fault Fault.useAfterFree := by
  have h1 : Queue.insert x DoublyLinkedList.empty
      = Res.ok ⟨some 0, some 0, [some ⟨x, none, none⟩]⟩ := rfl
  have h2 : Queue.remove (fuel + 1) x ⟨some 0, some 0, [some ⟨x, none, none⟩]⟩
      = Res.ok ⟨none, some 0, [none]⟩ := by
    simp [Queue.remove, searchLoop, deref, lookup, free]
  have h3 : Queue.insert v ⟨none, some 0, [none]⟩ = Res.fault Fault.useAfterFree := rfl
  refine ⟨?_, rfl, h3, ?_⟩
  · simp [Queue.run, h1, h2]
  · simp [Queue.run, h1, h2, h3]

/-- C8. In a state satisfying the data-model invariants over the nodes
`pre ++ m :: suf`, where no node of `pre` holds `v` and node `m` (content `nm`) does,
`remove v` returns, and
* if `m` is the head: the new head is `m`'s former successor, that node (if any) has
  its predecessor link absent, and if `m` had no successor the head is absent and
  nothing is printed;
* if `m` is the tail and not the head: the new tail is `m`'s former predecessor, that
  node has its successor link absent, and head is unchanged. -/
theorem c8_remove_at_head_or_tail (s : DoublyLinkedList) (pre suf : List Nat) (m : Nat)
    (nm : Node) (v : Int) (fuel : Nat)
    (hw : WellFormed s (pre ++ m :: suf)) (hpre : ∀ a ∈ pre, dataAt s.heap a ≠ v)
    (hm : lookup s.heap m = some nm) (hv : nm.data = v) (hf : pre.length < fuel) :
    ∃ s1, Stack.remove fuel v s = Res.ok s1 ∧ Queue.remove fuel v s = Res.ok s1 ∧
      (s.head = some m →
        s1.head = nm.next ∧
        (∀ b, nm.next = some b → ∃ nb, lookup s1.heap b = some nb ∧ nb.prev = none) ∧
        (nm.next = none → s1.head = none ∧ printContents fuel s1 = Res.ok [])) ∧
      (s.tail = some m → s.head ≠ some m →
        ∃ b nb, nm.prev = some b ∧ s1.tail = some b ∧ lookup s1.heap b = some nb ∧
          nb.next = none ∧ s1.head = s.head) := by
  have hdm : dataAt s.heap m = v := by rw [dataAt_eq hm]; exact hv
  obtain ⟨s1, hr, hl1, -⟩ := stack_remove_spec hw.linked hpre hdm fuel hf
  refine ⟨s1, hr, (queue_remove_eq_stack_remove fuel v s).trans hr, ?_, ?_⟩
  · intro hhm
    obtain ⟨hh, -, hseg, hnd⟩ := hw
    obtain ⟨-, -, htp, -, -, -⟩ := nodup_split hnd
    have hpnil : pre = [] := by
      cases pre with
      | nil => rfl
      | cons c r =>
        rw [hh] at hhm
        simp only [List.cons_append, List.head?_cons, Option.some.injEq] at hhm
        exact absurd (by simp [hhm]) htp
    subst hpnil
    obtain ⟨nt, hlt, -, hnext, -⟩ := hseg
    have e : nt = nm := by rw [hm] at hlt; exact (Option.some.inj hlt).symm
    subst e
    obtain ⟨hh1, -, hseg1, -⟩ := hl1
    cases suf with
    | nil =>
      have hn : nt.next = none := hnext
      have hh2 : s1.head = none := hh1
      refine ⟨by rw [hn, hh2], ?_, fun _ => ⟨hh2, ?_⟩⟩
      · intro b hb
        rw [hn] at hb
        exact absurd hb (by simp)
      · cases fuel with
        | zero => omega
        | succ k => simp [printContents, hh2, printLoop]
    | cons b r =>
      have hn : nt.next = some b := hnext
      have hh2 : s1.head = some b := hh1
      obtain ⟨nb, hlb, hpb, -, -⟩ := hseg1
      refine ⟨by rw [hn, hh2], ?_, ?_⟩
      · intro c hc
        rw [hn] at hc
        cases hc
        exact ⟨nb, hlb, hpb⟩
      · intro hc
        rw [hn] at hc
        exact absurd hc (by simp)
  · intro htm hnh
    obtain ⟨hh, htl, hseg, hnd⟩ := hw
    obtain ⟨-, -, -, hts, -, -⟩ := nodup_split hnd
    have hsnil : suf = [] := by
      cases suf with
      | nil => rfl
      | cons y r =>
        rw [htl, getLast?_append_cons, List.getLast?_cons_cons] at htm
        exact absurd (getLast?_mem_of_eq htm) hts
    subst hsnil
    rcases eq_nil_or_snoc pre with e | ⟨xs, x, e⟩
    · subst e
      exact absurd hh hnh
    · subst e
      rw [seg_append, final_concat] at hseg
      obtain ⟨-, nt, hlt, hprev, -, -⟩ := hseg
      have e : nt = nm := by rw [hm] at hlt; exact (Option.some.inj hlt).symm
      subst e
      obtain ⟨hh1, htl1, hseg1, -⟩ := hl1
      rw [List.append_nil] at hh1 htl1 hseg1
      rw [seg_append] at hseg1
      obtain ⟨-, nb, hlb, -, hnb, -⟩ := hseg1
      refine ⟨x, nb, hprev, ?_, hlb, hnb, ?_⟩
      · rw [htl1 (by simp), List.getLast?_concat]
      · rw [hh1, hh]
        cases xs <;> simp

theorem mainStack_wellFormed : WellFormed mainStack [2, 1, 0] :=
  ⟨rfl, rfl, ⟨_, rfl, rfl, rfl, _, rfl, rfl, rfl, _, rfl, rfl, rfl, trivial⟩, by decide⟩

/-- C8, at the list 30 20 10 built by `main`, removing the head value 30 (node 2, whose
successor is node 1). -/
theorem c8_witness_remove_head :
    WellFormed mainStack ([] ++ 2 :: [1, 0]) ∧
    (∀ a ∈ ([] : List Nat), dataAt mainStack.heap a ≠ 30) ∧
    lookup mainStack.heap 2 = some ⟨30, none, some 1⟩ ∧
    ([] : List Nat).length < 4 ∧
    ∃ s1, Stack.remove 4 30 mainStack = Res.ok s1 ∧ Queue.remove 4 30 mainStack = Res.ok s1 ∧
      (mainStack.head = some 2 →
        s1.head = some 1 ∧
        (∀ b, (some 1 : Option Nat) = some b →
          ∃ nb, lookup s1.heap b = some nb ∧ nb.prev = none) ∧
        ((some 1 : Option Nat) = none →
          s1.head = none ∧ printContents 4 s1 = Res.ok [])) ∧
      (mainStack.tail = some 2 → mainStack.head ≠ some 2 →
        ∃ b nb, (none : Option Nat) = some b ∧ s1.tail = some b ∧
          lookup s1.heap b = some nb ∧ nb.next = none ∧ s1.head = mainStack.head) :=
  ⟨mainStack_wellFormed, by simp, rfl, by decide,
    c8_remove_at_head_or_tail mainStack [] [1, 0] 2 ⟨30, none, some 1⟩ 30 4
      mainStack_wellFormed (by simp) rfl rfl (by decide)⟩

/-- C9. `insert` preserves the data-model invariants and adds exactly one node: from a
state satisfying them over the nodes `as`, `Stack::insert` returns a state satisfying
them over `new :: as`, whose head is the new node with the old head as its successor;
`Queue::insert` returns a state satisfying them over `as ++ [new]`, whose tail is the
new node with the old tail as its predecessor.  (`new` is the fresh address.) -/
theorem c9_insert_preserves_invariants (s : DoublyLinkedList) (as : List Nat) (v : Int)
    (hw : WellFormed s as) :
    (∃ s1, Stack.insert v s = Res.ok s1 ∧
      WellFormed s1 (s.heap.length :: as) ∧
      (s.heap.length :: as).length = as.length + 1 ∧
      s1.head = some s.heap.length ∧
      lookup s1.heap s.heap.length = some ⟨v, none, s.head⟩) ∧
    (∃ s1, Queue.insert v s = Res.ok s1 ∧
      WellFormed s1 (as ++ [s.heap.length]) ∧
      (as ++ [s.heap.length]).length = as.length + 1 ∧
      s1.tail = some s.heap.length ∧
      lookup s1.heap s.heap.length = some ⟨v, s.tail, none⟩) := by
  constructor
  · obtain ⟨s1, he, hw1, hnew, -⟩ := stack_insert_spec v hw.linked
    exact ⟨s1, he, hw1, by simp, hw1.1, hnew⟩
  · obtain ⟨s1, he, hw1, hnew, -⟩ := queue_insert_spec v hw
    refine ⟨s1, he, hw1, by simp, ?_, hnew⟩
    rw [hw1.2.1, List.getLast?_concat]

/-- C9, at the list 30 20 10 built by `main`, inserting 40. -/
theorem c9_witness_insert_40 :
    WellFormed mainStack [2, 1, 0] ∧
    ((∃ s1, Stack.insert 40 mainStack = Res.ok s1 ∧
      WellFormed s1 (3 :: [2, 1, 0]) ∧
      (3 :: [2, 1, 0]).length = [2, 1, 0].length + 1 ∧
      s1.head = some 3 ∧
      lookup s1.heap 3 = some ⟨40, none, some 2⟩) ∧
    (∃ s1, Queue.insert 40 mainStack = Res.ok s1 ∧
      WellFormed s1 ([2, 1, 0] ++ [3]) ∧
      ([2, 1, 0] ++ [3]).length = [2, 1, 0].length + 1 ∧
      s1.tail = some 3 ∧
      lookup s1.heap 3 = some ⟨40, some 0, none⟩)) :=
  ⟨mainStack_wellFormed, c9_insert_preserves_invariants mainStack [2, 1, 0] 40
    mainStack_wellFormed⟩

/-- C10. The Stack refines the abstract list model over arbitrary histories: every
finite history of `insert` and `remove` calls on a freshly constructed Stack runs to
completion, and `printContents` then yields what the same calls produce on a plain
list where `insert v` prepends `v` and `remove v` deletes the first occurrence of `v`
if there is one. -/
theorem c10_stack_refines_list_model (ops : List Op) (fuel : Nat)
    (hf : ops.length < fuel) :
    ∃ s, Stack.run fuel ops DoublyLinkedList.empty = Res.ok s ∧
      printContents fuel s = Res.ok (specStackRun ops []) := by
  obtain ⟨s, as, he, hl, hp, hlen⟩ :=
    stack_run_spec fuel ops DoublyLinkedList.empty [] linked_empty (by simpa using hf)
  refine ⟨s, he, ?_⟩
  have hlf : as.length < fuel := by
    simp only [List.length_nil, Nat.zero_add] at hlen
    omega
  rw [linked_print hl fuel hlf, hp]
  rfl

/-- C10, at a history that empties the Stack and refills it. -/
theorem c10_witness_empty_and_refill :
    [Op.insert 1, Op.remove 1, Op.insert 2, Op.insert 3, Op.remove 2].length < 6 ∧
    ∃ s, Stack.run 6 [Op.insert 1, Op.remove 1, Op.insert 2, Op.insert 3, Op.remove 2]
        DoublyLinkedList.empty = Res.ok s ∧
      printContents 6 s = Res.ok [3] :=
  ⟨by decide, c10_stack_refines_list_model
    [Op.insert 1, Op.remove 1, Op.insert 2, Op.insert 3, Op.remove 2] 6 (by decide)⟩

/-! ### A Queue after it has been emptied -/

/-- C15. `Stack::remove` and `Queue::remove` are the same operation: on every state and
for every value (and every bound on the search loop) they give the same outcome. -/
theorem c15_stack_remove_eq_queue_remove (fuel : Nat) (v : Int) (s : DoublyLinkedList) :
    Stack.remove fuel v s = Queue.remove fuel v s := by
  unfold Stack.remove Queue.remove
  rfl

/-! ### The benchmark pass -/

theorem stack_removeAll_spec (fuel : Nat) :
    ∀ (vs : List Int) (s : DoublyLinkedList) (as : List Nat), Linked s as →
      as.length < fuel →
      ∃ s1 as1, Stack.removeAll fuel vs s = Res.ok s1 ∧ Linked s1 as1 ∧
        as1.map (dataAt s1.heap) = vs.foldl List.erase (as.map (dataAt s.heap)) ∧
        as1.length ≤ as.length
  | [], s, as, hl, _ => ⟨s, as, rfl, hl, rfl, le_refl _⟩
  | v :: vs, s, as, hl, hf => by
    obtain ⟨s1, as1, he, hl1, hp, hle⟩ := stack_remove_payload v hl fuel hf
    obtain ⟨s2, as2, he2, hl2, hp2, hle2⟩ :=
      stack_removeAll_spec fuel vs s1 as1 hl1 (by omega)
    refine ⟨s2, as2, by simp [Stack.removeAll, he, he2], hl2, ?_, by omega⟩
    rw [hp2, hp]
    rfl

/-- Removing, one by one and first occurrence first, the values of `d` from a list that
starts with a rearrangement of `d` leaves exactly the rest of the list. -/
theorem foldl_erase_of_perm (l : List Int) :
    ∀ (d p : List Int), p.Perm d → d.foldl List.erase (p ++ l) = l
  | [], p, hp => by
    rw [List.Perm.eq_nil hp]
    rfl
  | x :: d, p, hp => by
    have hx : x ∈ p := hp.symm.subset (List.mem_cons_self x d)
    have hp1 : (p.erase x).Perm d := by
      have := hp.erase x
      rwa [List.erase_cons_head] at this
    rw [List.foldl_cons, List.erase_append_left _ hx]
    exact foldl_erase_of_perm l d (p.erase x) hp1

/-- C12. One benchmark pass is a round trip on the Stack: from every state reached from
a freshly constructed Stack by a history of `insert` and `remove` calls, inserting all
values of `d` in order and then removing all values of `d` in the same order returns,
and `printContents` yields the same sequence after the pass as before it (duplicates
in `d`, and values of `d` already in the list, included). -/
theorem c12_benchmark_pass_is_round_trip (hist : List Op) (d : List Int) (fuel : Nat)
    (hf : hist.length + d.length < fuel) :
    ∃ s s1, Stack.run fuel hist DoublyLinkedList.empty = Res.ok s ∧
      printContents fuel s = Res.ok (specStackRun hist []) ∧
      Stack.benchmarkPass fuel d s = Res.ok s1 ∧
      printContents fuel s1 = Res.ok (specStackRun hist []) := by
  obtain ⟨s, as, he, hl, hp, hlen⟩ :=
    stack_run_spec fuel hist DoublyLinkedList.empty [] linked_empty
      (by simp only [List.length_nil, Nat.zero_add]; omega)
  simp only [List.length_nil, Nat.zero_add] at hlen
  have hp0 : as.map (dataAt s.heap) = specStackRun hist [] := hp
  obtain ⟨s1, as1, he1, hl1, hp1, hlen1⟩ := stack_insertAll_spec d s as hl
  obtain ⟨s2, as2, he2, hl2, hp2, hlen2⟩ :=
    stack_removeAll_spec fuel d s1 as1 hl1 (by omega)
  refine ⟨s, s2, he, ?_, by simp [Stack.benchmarkPass, he1, he2], ?_⟩
  · rw [linked_print hl fuel (by omega), hp0]
  · rw [linked_print hl2 fuel (by omega), hp2, hp1,
      foldl_erase_of_perm _ d d.reverse (List.reverse_perm d), hp0]

/-- C12, at a pass with a duplicated value on the empty Stack: nothing is left over. -/
theorem c12_witness_duplicates_on_empty :
    ([] : List Op).length + [(7 : Int), 7, 3].length < 4 ∧
    ∃ s s1, Stack.run 4 [] DoublyLinkedList.empty = Res.ok s ∧
      printContents 4 s = Res.ok [] ∧
      Stack.benchmarkPass 4 [7, 7, 3] s = Res.ok s1 ∧
      printContents 4 s1 = Res.ok [] :=
  ⟨by decide, c12_benchmark_pass_is_round_trip [] [7, 7, 3] 4 (by decide)⟩

/-! ### Absent links and termination -/

theorem deref_some_cases (h : Heap) (a : Nat) :
    (∃ n, lookup h a = some n ∧ deref h (some a) = Res.ok n) ∨
      deref h (some a) = Res.fault Fault.useAfterFree := by
  cases hl : lookup h a with
  | none => exact Or.inr (by simp [deref, hl])
  | some n => exact Or.inl ⟨n, rfl, by simp [deref, hl]⟩

theorem assign_some_cases (h : Heap) (a : Nat) (f : Node → Node) :
    (∃ h1, assign h (some a) f = Res.ok h1) ∨
      assign h (some a) f = Res.fault Fault.useAfterFree := by
  cases hl : lookup h a with
  | none => exact Or.inr (by simp [assign, hl])
  | some n => exact Or.inl ⟨h.set a (some (f n)), by simp [assign, hl]⟩

/-- In every state, well-formed or not, the head branch and the tail branch of `remove`
never dereference `nullptr`: the only pointers they write through are guarded by
`if (head)` and `if (tail)`. -/
theorem remove_head_tail_branch_no_nullDeref (fuel : Nat) (v : Int) (s : DoublyLinkedList)
    (t : Nat) (hs : searchLoop fuel s.heap v s.head = Res.ok (some t))
    (hb : s.head = some t ∨ s.tail = some t) :
    Stack.remove fuel v s ≠ Res.fault Fault.nullDeref := by
  by_cases hh : s.head = some t
  · have hs1 := hs
    rw [hh] at hs1
    rcases deref_some_cases s.heap t with ⟨n, -, hd⟩ | hd
    · cases hn : n.next with
      | none => simp [Stack.remove, hs1, hh, hd, hn]
      | some b =>
        rcases assign_some_cases s.heap b (fun m => { m with prev := none }) with
          ⟨h1, ha⟩ | ha
        · simp [Stack.remove, hs1, hh, hd, hn, ha]
        · simp [Stack.remove, hs1, hh, hd, hn, ha]
    · simp [Stack.remove, hs1, hh, hd]
  · have ht : s.tail = some t := hb.resolve_left hh
    have hh2 : ¬ (some t = s.head) := fun e => hh e.symm
    rcases deref_some_cases s.heap t with ⟨n, -, hd⟩ | hd
    · cases hn : n.prev with
      | none => simp [Stack.remove, hs, hh2, ht, hd, hn]
      | some b =>
        rcases assign_some_cases s.heap b (fun m => { m with next := none }) with
          ⟨h1, ha⟩ | ha
        · simp [Stack.remove, hs, hh2, ht, hd, hn, ha]
        · simp [Stack.remove, hs, hh2, ht, hd, hn, ha]
    · simp [Stack.remove, hs, hh2, ht, hd]

theorem printLoop_out_of_fuel {h : Heap} :
    ∀ {as : List Nat} {p : Option Nat} (fuel : Nat), Chain h p as → fuel ≤ as.length →
      printLoop fuel h p = Res.fault Fault.outOfFuel
  | [], _, fuel, _, hf => by
    have : fuel = 0 := by simpa using hf
    subst this
    rfl
  | a :: rest, _, fuel, ⟨hp, n, hl, hc⟩, hf => by
    cases fuel with
    | zero => rfl
    | succ k =>
      subst hp
      have ih := printLoop_out_of_fuel k hc (by simpa using hf)
      simp [printLoop, deref_eq hl, ih]

/-- C13. In a state satisfying the data-model invariants over the nodes
`pre ++ m :: suf`, where `m` (content `nm`) is the first node holding `v`:
`remove v` returns a state, so no access in any branch is through an absent or dangling
link; if `m` is neither head nor tail, both its predecessor and its successor link are
present; and every link of `m` that is present leads to a live node. -/
theorem c13_remove_follows_no_absent_link (s : DoublyLinkedList) (pre suf : List Nat)
    (m : Nat) (nm : Node) (v : Int) (fuel : Nat)
    (hw : WellFormed s (pre ++ m :: suf)) (hpre : ∀ a ∈ pre, dataAt s.heap a ≠ v)
    (hm : lookup s.heap m = some nm) (hv : nm.data = v) (hf : pre.length < fuel) :
    (∃ s1, Stack.remove fuel v s = Res.ok s1 ∧ Queue.remove fuel v s = Res.ok s1) ∧
    (s.head ≠ some m → s.tail ≠ some m → ∃ x y, nm.prev = some x ∧ nm.next = some y) ∧
    (∀ b, nm.prev = some b ∨ nm.next = some b → ∃ nb, lookup s.heap b = some nb) := by
  have hdm : dataAt s.heap m = v := by rw [dataAt_eq hm]; exact hv
  obtain ⟨s1, hr, -, -⟩ := stack_remove_spec hw.linked hpre hdm fuel hf
  obtain ⟨hh, htl, hseg, -⟩ := hw
  rw [seg_append] at hseg
  obtain ⟨hsegp, nt, hlt, hprev, hnext, hsegs⟩ := hseg
  have e : nt = nm := by rw [hm] at hlt; exact (Option.some.inj hlt).symm
  subst e
  refine ⟨⟨s1, hr, (queue_remove_eq_stack_remove fuel v s).trans hr⟩, ?_, ?_⟩
  · intro hnh hnt
    rcases eq_nil_or_snoc pre with e | ⟨xs, x, e⟩
    · subst e
      exact absurd hh hnh
    · subst e
      cases suf with
      | nil =>
        rw [getLast?_append_cons, List.getLast?_singleton] at htl
        exact absurd htl hnt
      | cons y r =>
        rw [final_concat] at hprev
        exact ⟨x, y, hprev, hnext⟩
  · intro b hb
    rcases hb with hb | hb
    · rw [hprev] at hb
      rcases eq_nil_or_snoc pre with e | ⟨xs, x, e⟩
      · subst e
        simp [final] at hb
      · subst e
        rw [final_concat] at hb
        cases hb
        exact Seg.live hsegp b (by simp)
    · rw [hnext] at hb
      cases suf with
      | nil => simp [first] at hb
      | cons y r =>
        simp only [first] at hb
        cases hb
        exact Seg.live hsegs b (by simp)

/-- C13, at the list 30 20 10 built by `main`, removing the inner value 20 (node 1,
between node 2 and node 0). -/
theorem c13_witness_remove_inner :
    WellFormed mainStack ([2] ++ 1 :: [0]) ∧
    (∀ a ∈ [2], dataAt mainStack.heap a ≠ 20) ∧
    lookup mainStack.heap 1 = some ⟨20, some 2, some 0⟩ ∧
    [2].length < 4 ∧
    ((∃ s1, Stack.remove 4 20 mainStack = Res.ok s1 ∧
        Queue.remove 4 20 mainStack = Res.ok s1) ∧
      (mainStack.head ≠ some 1 → mainStack.tail ≠ some 1 →
        ∃ x y, (some 2 : Option Nat) = some x ∧ (some 0 : Option Nat) = some y) ∧
      (∀ b, (some 2 : Option Nat) = some b ∨ (some 0 : Option Nat) = some b →
        ∃ nb, lookup mainStack.heap b = some nb)) :=
  ⟨mainStack_wellFormed, by decide, rfl, by decide,
    c13_remove_follows_no_absent_link mainStack [2] [0] 1 ⟨20, some 2, some 0⟩ 20 4
      mainStack_wellFormed (by decide) rfl rfl (by decide)⟩

/-- C14. When the successor chain from head visits the live nodes `as` and then reaches
`nullptr`: the loop of `printContents` stops, having printed the payload of each node
of `as` once, in order; it needs exactly `as.length + 1` evaluations of its condition
(any smaller bound is exhausted); and the search loop of `remove v` stops, either at
`nullptr` with no node of `as` holding `v`, or at the first node of `as` holding `v`. -/
theorem c14_traversals_terminate (s : DoublyLinkedList) (as : List Nat) (v : Int)
    (fuel : Nat) (hc : Chain s.heap s.head as) (hf : as.length < fuel) :
    printContents fuel s = Res.ok (as.map (dataAt s.heap)) ∧
    (∀ k, k ≤ as.length → printContents k s = Res.fault Fault.outOfFuel) ∧
    ((searchLoop fuel s.heap v s.head = Res.ok none ∧ ∀ a ∈ as, dataAt s.heap a ≠ v) ∨
      (∃ pre t suf, as = pre ++ t :: suf ∧ (∀ a ∈ pre, dataAt s.heap a ≠ v) ∧
        dataAt s.heap t = v ∧ searchLoop fuel s.heap v s.head = Res.ok (some t))) := by
  refine ⟨printLoop_of_chain fuel hc hf, fun k hk => printLoop_out_of_fuel k hc hk, ?_⟩
  by_cases hv : v ∈ as.map (dataAt s.heap)
  · obtain ⟨pre, t, suf, he, hp, ht⟩ := first_match_split (dataAt s.heap) v as hv
    subst he
    have hf1 : pre.length < fuel := by
      simp only [List.length_append, List.length_cons] at hf
      omega
    exact Or.inr ⟨pre, t, suf, rfl, hp, ht, searchLoop_found fuel hc hf1 hp ht⟩
  · have hno : ∀ a ∈ as, dataAt s.heap a ≠ v :=
      fun a ha e => hv (List.mem_map.2 ⟨a, ha, e⟩)
    exact Or.inl ⟨searchLoop_not_found fuel hc hf hno, hno⟩

/-- C14, at the list 30 20 10 built by `main`, searching for 20. -/
theorem c14_witness_main_stack :
    Chain mainStack.heap mainStack.head [2, 1, 0] ∧ [2, 1, 0].length < 4 ∧
    (printContents 4 mainStack = Res.ok ([2, 1, 0].map (dataAt mainStack.heap)) ∧
    (∀ k, k ≤ [2, 1, 0].length → printContents k mainStack = Res.fault Fault.outOfFuel) ∧
    ((searchLoop 4 mainStack.heap 20 mainStack.head = Res.ok none ∧
        ∀ a ∈ [2, 1, 0], dataAt mainStack.heap a ≠ 20) ∨
      (∃ pre t suf, [2, 1, 0] = pre ++ t :: suf ∧
        (∀ a ∈ pre, dataAt mainStack.heap a ≠ 20) ∧
        dataAt mainStack.heap t = 20 ∧
        searchLoop 4 mainStack.heap 20 mainStack.head = Res.ok (some t)))) :=
  ⟨⟨rfl, _, rfl, rfl, _, rfl, rfl, _, rfl, rfl⟩, by decide,
    c14_traversals_terminate mainStack [2, 1, 0] 20 4
      ⟨rfl, _, rfl, rfl, _, rfl, rfl, _, rfl, rfl⟩ (by decide)⟩

end Sourc
